import Mathlib

/-!
Shallow embedding of `scan-lockfiles.js` (sha1-hulud-checker): the lockfile
extraction and matching core.  Strings from the JavaScript side are modelled
as `List Char`; JavaScript `Map`/`Set` values are modelled as association
lists / lists with membership, which preserves insertion order exactly as the
source relies on it.  `JSON.parse` and `readFileSync` are external effects:
a parse failure is modelled as `Option.none`, a read failure likewise.
-/

set_option maxHeartbeats 1000000

abbrev Str := List Char

/-- Coerce a Lean string literal to the character-list model. -/
def str (s : String) : Str := s.data

/-- The JavaScript `\s` character class (ASCII part, which is all that
lockfiles and the dataset contain). -/
def jsWS (c : Char) : Bool :=
  c == ' ' || c == '\t' || c == '\n' || c == '\r' || c == '\x0b' || c == '\x0c'

/-- A single or double quote, the `['"]` class used throughout the regexes. -/
def quoteChar (c : Char) : Bool := c == '\'' || c == '"'

/-- A JavaScript line terminator (LF, CR, LS, PS): the characters `.` does
not match without the `s` flag. -/
def lineTerm (c : Char) : Bool :=
  c == '\n' || c == '\r' || c == '\u2028' || c == '\u2029'

/-- JavaScript `String.prototype.trim` (both ends). -/
def trimStr (s : Str) : Str :=
  ((s.dropWhile jsWS).reverse.dropWhile jsWS).reverse

/-- JavaScript `content.split('\n')` on the character-list model. -/
def splitNl : Str → List Str
  | [] => [[]]
  | c :: rest =>
    match splitNl rest with
    | [] => [[c]]
    | h :: t => if c == '\n' then [] :: h :: t else (c :: h) :: t

/-! ## VulnerabilityIndex: `parseAffectedPackages` (scan-lockfiles.js:24-48) -/

/-- The index built by `parseAffectedPackages`: a JS `Map` from package name
to a `Set` of version strings, modelled as an insertion-ordered association
list whose value lists have set semantics (no duplicate versions). -/
abbrev AffectedMap := List (Str × List Str)

/-- `packages.get(name).add(version)` / `packages.set(name, new Set())`:
insert a record, merging into an existing name's version set. -/
def addRecord (m : AffectedMap) (name ver : Str) : AffectedMap :=
  match m with
  | [] => [(name, [ver])]
  | (n, vs) :: rest =>
    if n = name then (n, if ver ∈ vs then vs else vs ++ [ver]) :: rest
    else (n, vs) :: addRecord rest name ver

/-- One attempt of the CSV regex `/"([^"]+)";"([^"]+)"/` anchored at the
start of `s`: `"` then a maximal nonempty run of non-quotes, `";"`, another
nonempty run, `"`.  (The greedy `[^"]+` runs cannot backtrack successfully
because the character given back is never a quote.) -/
def tryCsvAt (s : Str) : Option (Str × Str) :=
  match s with
  | '"' :: r1 =>
    let run1 := r1.takeWhile (fun c => !(c == '"'))
    if run1.isEmpty then none else
    match r1.drop run1.length with
    | '"' :: ';' :: '"' :: r2 =>
      let run2 := r2.takeWhile (fun c => !(c == '"'))
      if run2.isEmpty then none else
      match r2.drop run2.length with
      | '"' :: _ => some (run1, run2)
      | _ => none
    | _ => none
  | _ => none

/-- `line.match(/"([^"]+)";"([^"]+)"/)`: leftmost match anywhere in the line. -/
def findCsvMatch : Str → Option (Str × Str)
  | [] => none
  | c :: rest =>
    match tryCsvAt (c :: rest) with
    | some p => some p
    | none => findCsvMatch rest

/-- `parseAffectedPackages` (scan-lockfiles.js:24-48): trim the content,
split into lines, skip the header line, trim each line, skip blank lines,
and add one record per line matching the CSV regex. -/
def parseAffectedPackages (content : Str) : AffectedMap :=
  let lines := splitNl (trimStr content)
  (lines.drop 1).foldl
    (fun m rawLine =>
      let line := trimStr rawLine
      if line.isEmpty then m
      else
        match findCsvMatch line with
        | some (packageName, version) => addRecord m packageName version
        | none => m)
    []

/-! ## Matcher: `checkAndAddPackage` (scan-lockfiles.js:167-181) -/

/-- A candidate (packageName, version) pair. -/
abbrev Cand := Str × Str

/-- The template literal `` `${packageName}@${version}` ``. -/
def mkKey (packageName version : Str) : Str := packageName ++ '@' :: version

/-- The per-file mutable state of a scan: the `found` array (in push order)
and the `checked` set of dedup keys (a JS `Set`, modelled as the list of
inserted keys; only membership is ever consulted). -/
structure ScanState where
  found : List Cand
  checked : List Str
deriving Repr, DecidableEq

/-- `checkAndAddPackage` (scan-lockfiles.js:167-181). -/
def checkAndAddPackage (packageName version : Str) (affectedPackages : AffectedMap)
    (st : ScanState) : ScanState :=
  let key := mkKey packageName version
  if st.checked.contains key then st
  else
    let st1 : ScanState := ⟨st.found, key :: st.checked⟩
    match List.lookup packageName affectedPackages with
    | some affectedVersions =>
      if affectedVersions.contains version then
        ⟨st1.found ++ [(packageName, version)], st1.checked⟩
      else st1
    | none => st1

/-- Run `checkAndAddPackage` over a sequence of candidate pairs, in order.
Each scanner in the source interleaves its candidate extraction with these
calls, but extraction never reads `found`/`checked`, so every scanner equals
this fold over its extracted candidate sequence. -/
def matchFold (aff : AffectedMap) (cands : List Cand) (st : ScanState) : ScanState :=
  cands.foldl (fun s c => checkAndAddPackage c.1 c.2 aff s) st

/-- `affectedPackages.has(name) && affectedPackages.get(name).has(version)`:
whether a candidate matches the index. -/
def matchesIndex (aff : AffectedMap) (c : Cand) : Bool :=
  match List.lookup c.1 aff with
  | some vs => vs.contains c.2
  | none => false

/-- First-occurrence deduplication of a candidate list by the `name@version`
string key, given the set of keys already seen. -/
def dedupByKey : List Cand → List Str → List Cand
  | [], _ => []
  | c :: rest, seen =>
    let key := mkKey c.1 c.2
    if seen.contains key then dedupByKey rest seen
    else c :: dedupByKey rest (key :: seen)

/-! ## TreeExtractor: JSON lockfiles (scan-lockfiles.js:67-120) -/

mutual
/-- One node of the legacy npm v1 `dependencies` tree.  A JS `null` entry or
an absent `dependencies` field behaves exactly like `version := none` /
`dependencies := DepList.nil` and is modelled as such. -/
inductive DepNode : Type where
  | mk (version : Option Str) (dependencies : DepList)

/-- The ordered entries of a `dependencies` object
(`Object.entries`: name/node pairs in key order). -/
inductive DepList : Type where
  | nil
  | cons (packageName : Str) (node : DepNode) (rest : DepList)
end

/-- Build a `DepList` from a Lean list of name/node pairs. -/
def depList : List (Str × DepNode) → DepList
  | [] => DepList.nil
  | (n, d) :: rest => DepList.cons n d (depList rest)

/-- A parsed JSON lockfile: the two top-level keys the scanner reads.
`none` fields model absent (or JS-falsy) keys. -/
structure Lockfile where
  packages : Option (List (Str × Option Str))
  dependencies : Option DepList

/-- The pattern `node_modules/`. -/
def nmPat : Str := str "node_modules/"

/-- All indices `i` at which `pat` occurs in `s` (ascending). -/
def occIdxs (pat s : Str) : List Nat :=
  (List.range (s.length + 1)).filter (fun i => pat.isPrefixOf (s.drop i))

/-- Index of the rightmost occurrence of `pat` in `s`
(JS `String.prototype.lastIndexOf`). -/
def findLastIdx (pat s : Str) : Option Nat := (occIdxs pat s).getLast?

/-- Whether the regex tail `(.+)$` succeeds right after the occurrence of
`node_modules/` at index `i`: the rest of the key must be nonempty and free
of line terminators.  (JS `.` without the `s` flag excludes line terminators
and `$` without the `m` flag anchors only at the end of the input, so the
greedy `.+` must cover the whole rest; if a terminator cuts it short, every
backtrack of `.+` lands before a non-terminator, never at the end.) -/
def okOcc (key : Str) (i : Nat) : Bool :=
  let rest := key.drop (i + nmPat.length)
  !rest.isEmpty && rest.all (fun c => !lineTerm c)

/-- `key.match(/node_modules\/(.+)$/)` (scan-lockfiles.js:84): the engine
tries positions left to right, so it matches at the leftmost occurrence of
`node_modules/` whose remaining suffix is nonempty and line-terminator-free,
capturing that suffix; if no occurrence qualifies, the match fails. -/
def matchNodeModulesSuffix (key : Str) : Option Str :=
  match ((occIdxs nmPat key).filter (okOcc key)).head? with
  | none => none
  | some i => some (key.drop (i + nmPat.length))

/-- The name derivation of scan-lockfiles.js:81-92: start from the whole key;
if the regex matches, take its capture and then everything after the last
`node_modules/` inside that capture (if any). -/
def derivePackageName (key : Str) : Str :=
  match matchNodeModulesSuffix key with
  | none => key
  | some rest =>
    match findLastIdx nmPat rest with
    | none => rest
    | some j => rest.drop (j + nmPat.length)

/-- Pass A (scan-lockfiles.js:73-98): candidates from the flat `packages`
object, in key order.  An entry is skipped when its value/`version` is JS-falsy
(`none` or the empty string) or when the derived package name is empty. -/
def passACandidates : List (Str × Option Str) → List Cand
  | [] => []
  | (key, verOpt) :: rest =>
    match verOpt with
    | none => passACandidates rest
    | some v =>
      if v.isEmpty then passACandidates rest
      else
        let packageName := derivePackageName key
        if packageName.isEmpty then passACandidates rest
        else (packageName, v) :: passACandidates rest

mutual
/-- Pass B (`scanNpmV1Dependencies`, scan-lockfiles.js:110-120): each node
with a truthy `version` yields a candidate under its own property name, then
its children are visited, then its siblings. -/
def v1Candidates : DepList → List Cand
  | DepList.nil => []
  | DepList.cons packageName node rest =>
    nodeCandidates packageName node ++ v1Candidates rest

/-- Candidates of one dependency node: the node itself (when its `version`
is truthy), then its `dependencies` children. -/
def nodeCandidates (packageName : Str) : DepNode → List Cand
  | DepNode.mk version deps =>
    (match version with
     | some v => if v.isEmpty then [] else [(packageName, v)]
     | none => []) ++ v1Candidates deps
end

/-- All candidates of `scanJsonLockfile` (scan-lockfiles.js:67-108) in call
order: Pass A over `packages` (when present) then Pass B over `dependencies`
(when present); a JSON parse failure (`none`) is caught and yields nothing. -/
def jsonCandidates : Option Lockfile → List Cand
  | none => []
  | some lf =>
    (match lf.packages with
     | some pkgs => passACandidates pkgs
     | none => []) ++
    (match lf.dependencies with
     | some deps => v1Candidates deps
     | none => [])

/-- `scanJsonLockfile` (scan-lockfiles.js:67-108). -/
def scanJsonLockfile (parsed : Option Lockfile) (aff : AffectedMap) (st : ScanState) :
    ScanState :=
  matchFold aff (jsonCandidates parsed) st

/-- `scanNpmV1Dependencies` (scan-lockfiles.js:110-120). -/
def scanNpmV1Dependencies (deps : DepList) (aff : AffectedMap)
    (st : ScanState) : ScanState :=
  matchFold aff (v1Candidates deps) st

/-! ## TextExtractor: YAML-like lockfiles (scan-lockfiles.js:122-165) -/

/-- Character admissible inside the first capture of the inline regex
`['"]?(@?[^@'"]+)@([^'":\s]+)['"]?:` after the optional leading `@`. -/
def g1Char (c : Char) : Bool := !(c == '@') && !quoteChar c

/-- Character admissible in the version capture `[^'":\s]+`. -/
def g2Char (c : Char) : Bool := !quoteChar c && !(c == ':') && !jsWS c

/-- One attempt of the inline regex at the head of `s`.  Returns the captured
(name, version) and the total matched length.  The greedy runs cannot
backtrack successfully (a character given back by `[^@'"]+` is never `@`, one
given back by `[^'":\s]+` is never a quote or `:`), so the match is the
deterministic sequential scan below. -/
def tryInlineAt (s : Str) : Option (Cand × Nat) :=
  let (q1, s1) :=
    match s with
    | c :: rest => if quoteChar c then (1, rest) else (0, s)
    | [] => (0, s)
  let (atP, s2) :=
    match s1 with
    | c :: rest => if c == '@' then (([c] : Str), rest) else ([], s1)
    | [] => ([], s1)
  let run1 := s2.takeWhile g1Char
  if run1.isEmpty then none else
  match s2.drop run1.length with
  | '@' :: s4 =>
    let run2 := s4.takeWhile g2Char
    if run2.isEmpty then none else
    let base := q1 + atP.length + run1.length + 1 + run2.length
    match s4.drop run2.length with
    | ':' :: _ => some (((atP ++ run1, run2), base + 1))
    | c :: ':' :: _ =>
      if quoteChar c then some (((atP ++ run1, run2), base + 2)) else none
    | _ => none
  | _ => none

/-- The `while ((match = packageAtVersionRegex.exec(content)) !== null)` loop
(scan-lockfiles.js:127-133): leftmost-match scan of the whole content; on a
match, continue after its end, otherwise advance one position.  The fuel is
the remaining length (each step consumes at least one character). -/
def inlineScanFuel : Nat → Str → List Cand
  | 0, _ => []
  | _ + 1, [] => []
  | fuel + 1, c :: rest =>
    match tryInlineAt (c :: rest) with
    | some (cand, len) => cand :: inlineScanFuel fuel ((c :: rest).drop len)
    | none => inlineScanFuel fuel rest

/-- Scan 1 of `scanYamlLockfile`: all inline `name@version:` matches. -/
def inlineScan (s : Str) : List Cand := inlineScanFuel s.length s

/-- Character class `[\w\-./]` of the package-name line regex. -/
def nameChar (c : Char) : Bool :=
  c.isAlpha || c.isDigit || c == '_' || c == '-' || c == '.' || c == '/'

/-- `line.match(/^\s+['"]?(@?[\w\-./]+)['"]?:\s*$/)` (scan-lockfiles.js:146):
indentation, optionally quoted name (optional leading `@`), a colon, then
only trailing whitespace. -/
def pkgLineMatch (line : Str) : Option Str :=
  let ws := line.takeWhile jsWS
  if ws.isEmpty then none else
  let r1 := line.drop ws.length
  let (r2, _) :=
    match r1 with
    | c :: rest => if quoteChar c then (rest, true) else (r1, false)
    | [] => (r1, false)
  let (atP, r3) :=
    match r2 with
    | c :: rest => if c == '@' then (([c] : Str), rest) else ([], r2)
    | [] => ([], r2)
  let run := r3.takeWhile nameChar
  if run.isEmpty then none else
  let r4 := r3.drop run.length
  let r5 :=
    match r4 with
    | c :: rest => if quoteChar c then rest else r4
    | [] => r4
  match r5 with
  | ':' :: tail => if tail.all jsWS then some (atP ++ run) else none
  | _ => none

/-- Character class `[^'"(\s]` of the version-line regex. -/
def verChar (c : Char) : Bool := !quoteChar c && !(c == '(') && !jsWS c

/-- `line.match(/^\s+version:\s*['"]?([^'"(\s]+)/)` (scan-lockfiles.js:154). -/
def versionLineMatch (line : Str) : Option Str :=
  let ws := line.takeWhile jsWS
  if ws.isEmpty then none else
  let r1 := line.drop ws.length
  if (str "version:").isPrefixOf r1 then
    let r2 := (r1.drop (str "version:").length).dropWhile jsWS
    let r3 :=
      match r2 with
      | c :: rest => if quoteChar c then rest else r2
      | [] => r2
    let run := r3.takeWhile verChar
    if run.isEmpty then none else some run
  else none

/-- `line.match(/^\s+specifier:/)` (scan-lockfiles.js:159). -/
def specifierLine (line : Str) : Bool :=
  let ws := line.takeWhile jsWS
  !ws.isEmpty && (str "specifier:").isPrefixOf (line.drop ws.length)

/-- Scan 2 of `scanYamlLockfile` (scan-lockfiles.js:139-164): the per-line
`currentPackage` state machine.  A package-name line always (re)sets the
pending name; with a pending name, a version line emits a candidate and
clears it, a specifier line keeps it, any other line clears it. -/
def importerCandidates : List Str → Option Str → List Cand
  | [], _ => []
  | line :: rest, currentPackage =>
    match pkgLineMatch line with
    | some name => importerCandidates rest (some name)
    | none =>
      match currentPackage with
      | some name =>
        match versionLineMatch line with
        | some version => (name, version) :: importerCandidates rest none
        | none =>
          if specifierLine line then importerCandidates rest (some name)
          else importerCandidates rest none
      | none => importerCandidates rest none

/-- All candidates of `scanYamlLockfile` in call order: the inline-regex
loop runs to completion before the line state machine starts. -/
def yamlCandidates (content : Str) : List Cand :=
  inlineScan content ++ importerCandidates (splitNl content) none

/-- `scanYamlLockfile` (scan-lockfiles.js:122-165). -/
def scanYamlLockfile (content : Str) (aff : AffectedMap) (st : ScanState) : ScanState :=
  matchFold aff (yamlCandidates content) st

/-! ## `scanLockfile` and `main` (scan-lockfiles.js:50-65, 305-408) -/

/-- A lockfile input after the external effects have happened: the extension
dispatch of scan-lockfiles.js:56 selects the JSON branch (whose `JSON.parse`
result, `none` on a parse error, is the `jsonC` payload) or the text branch
(which receives the raw content). -/
inductive Content where
  | jsonC (parsed : Option Lockfile)
  | textC (content : Str)

/-- All candidates a given input's scan checks, in order. -/
def fileCandidates : Content → List Cand
  | Content.jsonC parsed => jsonCandidates parsed
  | Content.textC content => yamlCandidates content

/-- The full per-file state produced by `scanLockfile` (scan-lockfiles.js:50-65),
starting from the fresh `found = []`, `checked = new Set()`. -/
def scanLockfileSt (c : Content) (aff : AffectedMap) : ScanState :=
  match c with
  | Content.jsonC parsed => scanJsonLockfile parsed aff ⟨[], []⟩
  | Content.textC content => scanYamlLockfile content aff ⟨[], []⟩

/-- `scanLockfile`'s return value: the `found` list. -/
def scanLockfile (c : Content) (aff : AffectedMap) : List Cand :=
  (scanLockfileSt c aff).found

/-- Outcome of one run of `main`: either an uncaught exception aborts the
process, or it completes with an exit code and the per-file match lists. -/
inductive RunOutcome where
  | aborted
  | completed (exitCode : Nat) (perFile : List (List Cand))
deriving Repr, DecidableEq

/-- `main` (scan-lockfiles.js:305-408), with the external effects explicit:
`datasetContent` is the result of reading the dataset file (`none` = the read
threw, which nothing catches), `files` are the contents of the lockfiles the
traversal found.  The source performs no emptiness check on the parsed
dataset; it scans every file and exits 1 iff matches were found (or no
lockfile was found at all). -/
def mainModel (datasetContent : Option Str) (files : List Content) : RunOutcome :=
  match datasetContent with
  | none => RunOutcome.aborted
  | some ds =>
    let affectedPackages := parseAffectedPackages ds
    if files.isEmpty then RunOutcome.completed 1 []
    else
      let results := files.map (fun f => scanLockfile f affectedPackages)
      let totalFound := (results.map List.length).sum
      RunOutcome.completed (if totalFound > 0 then 1 else 0) results

/-! ## Lemmas about the matcher -/

/-- The dedup key of a candidate. -/
def keyOf (c : Cand) : Str := mkKey c.1 c.2

theorem contains_iff_mem {α : Type} [BEq α] [LawfulBEq α] (l : List α) (a : α) :
    l.contains a = true ↔ a ∈ l := List.elem_iff

/-- Branch-free description of `checkAndAddPackage`. -/
theorem checkAndAddPackage_eq (n v : Str) (aff : AffectedMap) (st : ScanState) :
    checkAndAddPackage n v aff st =
      if mkKey n v ∈ st.checked then st
      else ⟨st.found ++ (if matchesIndex aff (n, v) = true then [(n, v)] else []),
            mkKey n v :: st.checked⟩ := by
  unfold checkAndAddPackage matchesIndex
  by_cases h : mkKey n v ∈ st.checked
  · simp [h]
  · cases hl : List.lookup n aff with
    | none => simp [h, hl]
    | some vs =>
      by_cases hv : v ∈ vs <;> simp [h, hl, hv]

/-- The matcher fold equals: keep the first occurrence of every dedup key,
filter by the index, append to the incoming `found`; the `checked` set grows
by the newly seen keys. -/
theorem matchFold_eq (aff : AffectedMap) :
    ∀ (cands : List Cand) (st : ScanState),
      matchFold aff cands st =
        ⟨st.found ++ (dedupByKey cands st.checked).filter (matchesIndex aff),
         ((dedupByKey cands st.checked).map keyOf).reverse ++ st.checked⟩ := by
  intro cands
  induction cands with
  | nil => intro st; simp [matchFold, dedupByKey]
  | cons c rest ih =>
    intro st
    obtain ⟨n, v⟩ := c
    have hstep : matchFold aff ((n, v) :: rest) st =
        matchFold aff rest (checkAndAddPackage n v aff st) := rfl
    rw [hstep, checkAndAddPackage_eq]
    by_cases h : mkKey n v ∈ st.checked
    · rw [if_pos h, ih]
      have hd : dedupByKey ((n, v) :: rest) st.checked = dedupByKey rest st.checked := by
        simp [dedupByKey, h]
      rw [hd]
    · rw [if_neg h, ih]
      have hd : dedupByKey ((n, v) :: rest) st.checked =
          (n, v) :: dedupByKey rest (mkKey n v :: st.checked) := by
        simp [dedupByKey, h]
      rw [hd]
      congr 1
      · by_cases hm : matchesIndex aff (n, v) = true
        · rw [if_pos hm, List.filter_cons_of_pos hm]; simp
        · rw [if_neg hm, List.filter_cons_of_neg (by simpa using hm)]; simp
      · show ((dedupByKey rest (mkKey n v :: st.checked)).map keyOf).reverse ++
            (mkKey n v :: st.checked) = _
        simp [keyOf, List.reverse_cons, List.append_assoc]

/-- The deduplicated candidate list has pairwise-distinct keys, all of them
outside the already-seen set. -/
theorem dedupByKey_nodup :
    ∀ (cands : List Cand) (seen : List Str),
      ((dedupByKey cands seen).map keyOf).Nodup ∧
        ∀ c ∈ dedupByKey cands seen, keyOf c ∉ seen := by
  intro cands
  induction cands with
  | nil => intro seen; simp [dedupByKey]
  | cons c rest ih =>
    intro seen
    obtain ⟨n, v⟩ := c
    by_cases h : mkKey n v ∈ seen
    · have hd : dedupByKey ((n, v) :: rest) seen = dedupByKey rest seen := by
        simp [dedupByKey, h]
      rw [hd]; exact ih seen
    · have hd : dedupByKey ((n, v) :: rest) seen =
          (n, v) :: dedupByKey rest (mkKey n v :: seen) := by
        simp [dedupByKey, h]
      rw [hd]
      obtain ⟨ihn, ihs⟩ := ih (mkKey n v :: seen)
      refine ⟨?_, ?_⟩
      · refine List.nodup_cons.mpr ⟨?_, ihn⟩
        intro hmem
        obtain ⟨c', hc', hkc'⟩ := List.mem_map.mp hmem
        exact (ihs c' hc') (hkc' ▸ List.mem_cons_self _ _)
      · intro c' hc'
        rcases List.mem_cons.mp hc' with hceq | hcm
        · subst hceq; exact h
        · intro hmem
          exact (ihs c' hcm) (List.mem_cons_of_mem _ hmem)

/-- Every scanner in the file is the matcher fold over its candidates. -/
theorem scanLockfileSt_eq (c : Content) (aff : AffectedMap) :
    scanLockfileSt c aff = matchFold aff (fileCandidates c) ⟨[], []⟩ := by
  cases c <;> rfl

/-- The full-scan result: first-occurrence dedup of the extracted candidates,
filtered by the index. -/
theorem scanLockfile_eq (c : Content) (aff : AffectedMap) :
    scanLockfile c aff =
      (dedupByKey (fileCandidates c) []).filter (matchesIndex aff) := by
  unfold scanLockfile
  rw [scanLockfileSt_eq, matchFold_eq]
  simp

/-! ## Lemmas about occurrence search and the name derivation -/

theorem nmPat_length : nmPat.length = 13 := rfl

theorem mem_occIdxs {pat s : Str} {i : Nat} :
    i ∈ occIdxs pat s ↔ i < s.length + 1 ∧ pat.isPrefixOf (s.drop i) = true := by
  unfold occIdxs
  rw [List.mem_filter, List.mem_range]

theorem occIdxs_pairwise (pat s : Str) : (occIdxs pat s).Pairwise (· < ·) :=
  List.Pairwise.sublist (List.filter_sublist _) (List.pairwise_lt_range _)

/-- An occurrence of the (13-character) pattern fits inside the string. -/
theorem occ_bound {s : Str} {i : Nat} (h : nmPat.isPrefixOf (s.drop i) = true) :
    i + nmPat.length ≤ s.length := by
  have hl := (List.isPrefixOf_iff_prefix.mp h).length_le
  rw [List.length_drop, nmPat_length] at hl
  rw [nmPat_length]
  omega

theorem mem_occIdxs_iff {s : Str} {i : Nat} :
    i ∈ occIdxs nmPat s ↔ nmPat.isPrefixOf (s.drop i) = true := by
  rw [mem_occIdxs]
  refine ⟨fun h => h.2, fun h => ⟨?_, h⟩⟩
  have := occ_bound h
  have h13 : nmPat.length = 13 := nmPat_length
  omega

theorem pairwise_head?_le {l : List Nat} (hp : l.Pairwise (· < ·)) {a : Nat}
    (h : l.head? = some a) : ∀ b ∈ l, a ≤ b := by
  cases l with
  | nil => simp at h
  | cons x xs =>
    have hx : x = a := by simpa using h
    subst hx
    intro b hb
    rcases List.mem_cons.mp hb with rfl | hbm
    · exact Nat.le_refl _
    · exact Nat.le_of_lt ((List.pairwise_cons.mp hp).1 b hbm)

theorem head?_mem {l : List Nat} {a : Nat} (h : l.head? = some a) : a ∈ l := by
  cases l with
  | nil => simp at h
  | cons x xs =>
    have hx : x = a := by simpa using h
    subst hx
    exact List.mem_cons_self _ _

/-- In a strictly increasing list, `getLast?` returns the maximum. -/
theorem pairwise_getLast?_eq {l : List Nat} (hp : l.Pairwise (· < ·)) {a : Nat}
    (ha : a ∈ l) (hmax : ∀ b ∈ l, b ≤ a) : l.getLast? = some a := by
  induction l with
  | nil => simp at ha
  | cons x xs ih =>
    cases xs with
    | nil =>
      have : a = x := by simpa using ha
      simp [this]
    | cons y ys =>
      rw [List.getLast?_cons_cons]
      rcases List.mem_cons.mp ha with rfl | ham
      · have hxy : a < y := (List.pairwise_cons.mp hp).1 y (List.mem_cons_self _ _)
        have := hmax y (List.mem_cons_of_mem _ (List.mem_cons_self _ _))
        omega
      · exact ih (List.pairwise_cons.mp hp).2 ham
          (fun b hb => hmax b (List.mem_cons_of_mem _ hb))

/-- In a strictly increasing list, the `getLast?` value bounds every member. -/
theorem pairwise_getLast?_ge {l : List Nat} (hp : l.Pairwise (· < ·)) {a : Nat}
    (h : l.getLast? = some a) : a ∈ l ∧ ∀ b ∈ l, b ≤ a := by
  induction l with
  | nil => simp at h
  | cons x xs ih =>
    cases xs with
    | nil =>
      have hx : x = a := by simpa using h
      subst hx
      exact ⟨List.mem_cons_self _ _, by intro b hb; simp at hb; omega⟩
    | cons y ys =>
      rw [List.getLast?_cons_cons] at h
      obtain ⟨hmem, hmax⟩ := ih (List.pairwise_cons.mp hp).2 h
      refine ⟨List.mem_cons_of_mem _ hmem, ?_⟩
      intro b hb
      rcases List.mem_cons.mp hb with rfl | hbm
      · exact Nat.le_of_lt ((List.pairwise_cons.mp hp).1 a hmem)
      · exact hmax b hbm

/-- `node_modules/` has no nonempty proper border: no proper suffix-start of
the pattern is also a prefix of it. -/
theorem nmPat_no_border :
    ∀ d, d < 13 → 0 < d → ((nmPat.drop d).isPrefixOf nmPat) = false := by decide

/-- Two occurrences of `node_modules/` cannot overlap. -/
theorem nmPat_no_overlap {s : Str} {i j : Nat} (hij : i < j)
    (hi : nmPat.isPrefixOf (s.drop i) = true)
    (hj : nmPat.isPrefixOf (s.drop j) = true) :
    i + nmPat.length ≤ j := by
  by_contra hlt
  have hd1 : 0 < j - i := by omega
  have hd2 : j - i < nmPat.length := by rw [nmPat_length] at hlt ⊢; omega
  obtain ⟨u, hu⟩ := List.isPrefixOf_iff_prefix.mp hi
  have hpj := List.isPrefixOf_iff_prefix.mp hj
  have hdj : s.drop j = nmPat.drop (j - i) ++ u := by
    have h1 : s.drop j = (s.drop i).drop (j - i) := by
      rw [List.drop_drop]; congr 1; omega
    rw [h1, ← hu, List.drop_append_of_le_length (Nat.le_of_lt hd2)]
  rw [hdj] at hpj
  obtain ⟨w, hw⟩ := hpj
  have hlen : (nmPat.drop (j - i)).length = nmPat.length - (j - i) :=
    List.length_drop _ _
  have htake : nmPat.take (nmPat.length - (j - i)) = nmPat.drop (j - i) := by
    have := congrArg (List.take (nmPat.length - (j - i))) hw
    rw [List.take_append_of_le_length (by omega), ← hlen, List.take_left] at this
    rw [← hlen]
    exact this
  have hpref : ((nmPat.drop (j - i)).isPrefixOf nmPat) = true :=
    List.isPrefixOf_iff_prefix.mpr (htake ▸ List.take_prefix _ _)
  have := nmPat_no_border (j - i) (by rw [nmPat_length] at hd2; omega) hd1
  rw [this] at hpref
  exact Bool.false_ne_true hpref

/-- If `node_modules/` does not occur in a key, the derivation is the
identity: the whole key is used verbatim as the package name. -/
theorem derivePackageName_of_no_occ {key : Str} (h : occIdxs nmPat key = []) :
    derivePackageName key = key := by
  unfold derivePackageName matchNodeModulesSuffix
  rw [h]
  rfl

/-- The occurrence list of a key of the shape `node_modules/<n>` starts
with the occurrence at index 0. -/
theorem occIdxs_append_self (n : Str) :
    ∃ t, occIdxs nmPat (nmPat ++ n) = 0 :: t := by
  unfold occIdxs
  rw [List.range_succ_eq_map,
    List.filter_cons_of_pos
      (by simp [List.isPrefixOf_iff_prefix])]
  exact ⟨_, rfl⟩

/-- Derivation for a key of the shape `node_modules/<n>` where `n` is
nonempty, free of line terminators, and contains no further
`node_modules/`. -/
theorem derivePackageName_append {n : Str} (hne : n ≠ [])
    (hno : occIdxs nmPat n = [])
    (hterm : n.all (fun c => !lineTerm c) = true) :
    derivePackageName (nmPat ++ n) = n := by
  have hdrop : (nmPat ++ n).drop (0 + nmPat.length) = n := by
    rw [Nat.zero_add, List.drop_left]
  have hok : okOcc (nmPat ++ n) 0 = true := by
    unfold okOcc
    simp only [hdrop]
    rw [Bool.and_eq_true]
    exact ⟨by simp [List.isEmpty_eq_false, hne], hterm⟩
  obtain ⟨t, ht⟩ := occIdxs_append_self n
  have hh : ((occIdxs nmPat (nmPat ++ n)).filter (okOcc (nmPat ++ n))).head?
      = some 0 := by
    rw [ht, List.filter_cons_of_pos hok]
    rfl
  have hm : matchNodeModulesSuffix (nmPat ++ n) = some n := by
    unfold matchNodeModulesSuffix
    rw [hh]
    show some ((nmPat ++ n).drop (0 + nmPat.length)) = some n
    rw [hdrop]
  have hlast : findLastIdx nmPat n = none := by
    unfold findLastIdx
    rw [hno]
    rfl
  unfold derivePackageName
  simp only [hm, hlast]

/-- Occurrences inside a `drop` are occurrences of the whole, shifted. -/
theorem occ_drop_iff {s : Str} (m k : Nat) :
    nmPat.isPrefixOf ((s.drop m).drop k) = nmPat.isPrefixOf (s.drop (m + k)) := by
  rw [List.drop_drop]

/-- Whenever the regex of scan-lockfiles.js:84 matches — i.e. some
occurrence of `node_modules/` has a nonempty, line-terminator-free suffix —
the derived name is the suffix of the key after its **last** occurrence
(`lastIndexOf` is a plain string search, indifferent to terminators). -/
theorem derivePackageName_after_last {key : Str}
    (hex : ∃ o ∈ occIdxs nmPat key, okOcc key o = true) :
    ∃ j, findLastIdx nmPat key = some j ∧
      derivePackageName key = key.drop (j + nmPat.length) := by
  obtain ⟨o, homem, hook⟩ := hex
  have hfil : o ∈ (occIdxs nmPat key).filter (okOcc key) :=
    List.mem_filter.mpr ⟨homem, hook⟩
  obtain ⟨i, hh⟩ : ∃ i, ((occIdxs nmPat key).filter (okOcc key)).head? = some i := by
    cases hf : (occIdxs nmPat key).filter (okOcc key) with
    | nil => rw [hf] at hfil; cases hfil
    | cons a t => exact ⟨a, by simp [hf]⟩
  have hifil : i ∈ (occIdxs nmPat key).filter (okOcc key) := head?_mem hh
  have himem : i ∈ occIdxs nmPat key := (List.mem_filter.mp hifil).1
  have hiok : okOcc key i = true := (List.mem_filter.mp hifil).2
  have hocc_ne : occIdxs nmPat key ≠ [] := List.ne_nil_of_mem himem
  obtain ⟨j, hj⟩ : ∃ j, findLastIdx nmPat key = some j := by
    unfold findLastIdx
    rw [List.getLast?_eq_getLast _ hocc_ne]
    exact ⟨_, rfl⟩
  have hjlast := pairwise_getLast?_ge (occIdxs_pairwise nmPat key) hj
  have hjmem : j ∈ occIdxs nmPat key := hjlast.1
  have hjmax : ∀ b ∈ occIdxs nmPat key, b ≤ j := hjlast.2
  have hi_pref : nmPat.isPrefixOf (key.drop i) = true := mem_occIdxs_iff.mp himem
  have hj_pref : nmPat.isPrefixOf (key.drop j) = true := mem_occIdxs_iff.mp hjmem
  have hij : i ≤ j := hjmax i himem
  have hm : matchNodeModulesSuffix key = some (key.drop (i + nmPat.length)) := by
    unfold matchNodeModulesSuffix
    rw [hh]
  refine ⟨j, hj, ?_⟩
  rcases Nat.eq_or_lt_of_le hij with heq | hlt2
  · -- single relevant occurrence: nothing occurs in the captured suffix
    subst heq
    have hnone : occIdxs nmPat (key.drop (i + nmPat.length)) = [] := by
      by_contra hne
      obtain ⟨k, hk⟩ := List.exists_mem_of_ne_nil _ hne
      have hkp := mem_occIdxs_iff.mp hk
      rw [occ_drop_iff] at hkp
      have : i + nmPat.length + k ∈ occIdxs nmPat key := mem_occIdxs_iff.mpr hkp
      have := hjmax _ this
      have h13 : 0 < nmPat.length := by rw [nmPat_length]; omega
      omega
    have hlastrest : findLastIdx nmPat (key.drop (i + nmPat.length)) = none := by
      unfold findLastIdx
      rw [hnone]
      rfl
    unfold derivePackageName
    simp only [hm, hlastrest]
  · -- a later occurrence exists; it is the last occurrence of the suffix
    have hsep : i + nmPat.length ≤ j := nmPat_no_overlap hlt2 hi_pref hj_pref
    have hk0 : j - (i + nmPat.length) ∈ occIdxs nmPat (key.drop (i + nmPat.length)) := by
      rw [mem_occIdxs_iff, occ_drop_iff]
      have : i + nmPat.length + (j - (i + nmPat.length)) = j := by omega
      rw [this]
      exact hj_pref
    have hk0max : ∀ k ∈ occIdxs nmPat (key.drop (i + nmPat.length)),
        k ≤ j - (i + nmPat.length) := by
      intro k hk
      have hkp := mem_occIdxs_iff.mp hk
      rw [occ_drop_iff] at hkp
      have := hjmax _ (mem_occIdxs_iff.mpr hkp)
      omega
    have hlastrest : findLastIdx nmPat (key.drop (i + nmPat.length)) =
        some (j - (i + nmPat.length)) :=
      pairwise_getLast?_eq (occIdxs_pairwise _ _) hk0 hk0max
    unfold derivePackageName
    simp only [hm, hlastrest]
    rw [List.drop_drop]
    congr 1
    omega

/-! ## Claim theorems -/

/-- C1: Matching soundness: a pair (n, v) appears in a scan's returned match
list only if the vulnerability index maps n to a version set containing v
under exact string equality; a name absent from the index is never reported,
and a name present in the index is never reported with a version outside its
affected set. -/
theorem C1_matching_soundness :
    (∀ (c : Content) (aff : AffectedMap) (n v : Str),
       (n, v) ∈ scanLockfile c aff →
         ∃ vs, List.lookup n aff = some vs ∧ v ∈ vs) ∧
    (∀ (c : Content) (aff : AffectedMap) (n v : Str),
       List.lookup n aff = none → (n, v) ∉ scanLockfile c aff) ∧
    (∀ (c : Content) (aff : AffectedMap) (n v : Str) (vs : List Str),
       List.lookup n aff = some vs → v ∉ vs → (n, v) ∉ scanLockfile c aff) := by
  have main : ∀ (c : Content) (aff : AffectedMap) (n v : Str),
      (n, v) ∈ scanLockfile c aff → ∃ vs, List.lookup n aff = some vs ∧ v ∈ vs := by
    intro c aff n v hm
    rw [scanLockfile_eq] at hm
    have hmi := (List.mem_filter.mp hm).2
    unfold matchesIndex at hmi
    cases hl : List.lookup n aff with
    | none =>
      rw [show List.lookup (n, v).1 aff = List.lookup n aff from rfl, hl] at hmi
      simp at hmi
    | some vs =>
      rw [show List.lookup (n, v).1 aff = List.lookup n aff from rfl, hl] at hmi
      exact ⟨vs, rfl, (contains_iff_mem vs v).mp hmi⟩
  refine ⟨main, ?_, ?_⟩
  · intro c aff n v hnone hm
    obtain ⟨vs, hvs, _⟩ := main c aff n v hm
    rw [hnone] at hvs
    exact Option.noConfusion hvs
  · intro c aff n v vs hsome hout hm
    obtain ⟨vs', hvs', hv'⟩ := main c aff n v hm
    rw [hsome] at hvs'
    injection hvs' with h
    subst h
    exact hout hv'

/-- Witness for C1 at a concrete input: the candidate (x, 9) is extracted
from the legacy tree but x is not in the index, so it is not reported. -/
theorem C1_matching_soundness_witness :
    (str "x", str "9") ∉
      scanLockfile
        (Content.jsonC (some ⟨none,
          some (depList [(str "x", DepNode.mk (some (str "9")) DepList.nil)])⟩))
        [(str "a", [str "1"])] :=
  C1_matching_soundness.2.1 _ _ _ _ (by decide)

/-- C2 counterexample: the key `foo` contains no `node_modules/` segment and
has a `version` field, yet the entry is NOT skipped — the key itself is used
as the package name, the candidate is checked (it enters `checked`) and is
even reported.  The claim predicts no candidate for this key. -/
theorem C2_counterexample :
    scanJsonLockfile (some ⟨some [(str "foo", some (str "1.0.0"))], none⟩)
        [(str "foo", [str "1.0.0"])] ⟨[], []⟩
      = ⟨[(str "foo", str "1.0.0")], [str "foo@1.0.0"]⟩ := by decide

/-- C2 amended: in Pass A, an entry whose key contains no `node_modules/`
segment is skipped only when the key is empty (the root entry) or its
version is JS-falsy; otherwise the whole key is used verbatim as the
candidate name and a candidate is emitted. -/
theorem C2_amended (key v : Str) (rest : List (Str × Option Str))
    (hno : occIdxs nmPat key = []) :
    passACandidates ((key, some v) :: rest) =
      (if key.isEmpty || v.isEmpty then [] else [(key, v)]) ++ passACandidates rest := by
  by_cases hv : v.isEmpty = true
  · simp [passACandidates, hv]
  · by_cases hk : key.isEmpty = true
    · have hkey : key = [] := List.isEmpty_iff.mp hk
      subst hkey
      simp [passACandidates, hv, derivePackageName_of_no_occ hno]
    · simp [passACandidates, hv, hk, derivePackageName_of_no_occ hno]

/-- Witness for C2's amended statement at the concrete key `foo`. -/
theorem C2_amended_witness :
    passACandidates [(str "foo", some (str "1.0.0"))] =
      (if (str "foo").isEmpty || (str "1.0.0").isEmpty then []
       else [(str "foo", str "1.0.0")]) ++ passACandidates [] :=
  C2_amended (str "foo") (str "1.0.0") [] (by decide)

/-- C3 counterexample: the key `foo/node_modules/` contains a `node_modules/`
segment and carries a version, so the claim says the candidate name is the
substring after the last occurrence — here the empty string (the last, and
only, occurrence ends the key).  The code instead fails the `(.+)$` regex and
uses the whole key verbatim: the reported name is `foo/node_modules/`. -/
theorem C3_counterexample :
    findLastIdx nmPat (str "foo/node_modules/") = some 4 ∧
    (str "foo/node_modules/").drop (4 + nmPat.length) = [] ∧
    derivePackageName (str "foo/node_modules/") = str "foo/node_modules/" ∧
    (scanJsonLockfile
        (some ⟨some [(str "foo/node_modules/", some (str "1.0.0"))], none⟩)
        [(str "foo/node_modules/", [str "1.0.0"])] ⟨[], []⟩).found
      = [(str "foo/node_modules/", str "1.0.0")] := by decide

/-- C3 amended: (1) whenever some occurrence of `node_modules/` in the key
has a nonempty suffix free of line terminators (JS `.` excludes line
terminators and `$` anchors at end of input), the candidate name is the
substring after the last occurrence — so `node_modules/foo/node_modules/bar`
yields `bar` and scoped names survive; (2) if no occurrence qualifies (the
only occurrence ends the key, or a line terminator follows every occurrence),
the regex fails and the whole key is used verbatim; (3) for every record
(n, v) of the index with nonempty v and n free of `node_modules/` and of line
terminators, a flat-manifest entry keyed `node_modules/n` with version v is
reported exactly once. -/
theorem C3_amended :
    (∀ key : Str,
       (∃ o ∈ occIdxs nmPat key, okOcc key o = true) →
       ∃ j, findLastIdx nmPat key = some j ∧
         derivePackageName key = key.drop (j + nmPat.length)) ∧
    (∀ key : Str,
       (∀ o ∈ occIdxs nmPat key, okOcc key o = false) →
       derivePackageName key = key) ∧
    (∀ (n v : Str) (vs : List Str) (aff : AffectedMap),
       n ≠ [] → occIdxs nmPat n = [] → n.all (fun c => !lineTerm c) = true →
       v ≠ [] →
       List.lookup n aff = some vs → v ∈ vs →
       (scanJsonLockfile (some ⟨some [(nmPat ++ n, some v)], none⟩)
           aff ⟨[], []⟩).found = [(n, v)]) := by
  refine ⟨fun key hex => derivePackageName_after_last hex, ?_, ?_⟩
  · intro key hall
    have hfe : (occIdxs nmPat key).filter (okOcc key) = [] := by
      rw [List.filter_eq_nil_iff]
      intro o ho
      simp [hall o ho]
    unfold derivePackageName matchNodeModulesSuffix
    rw [hfe]
    rfl
  · intro n v vs aff hn hno hterm hv hl hmem
    have hvf : v.isEmpty = false := by
      rw [List.isEmpty_eq_false]; exact hv
    have hnf : n.isEmpty = false := by
      rw [List.isEmpty_eq_false]; exact hn
    have hpa : passACandidates [(nmPat ++ n, some v)] = [(n, v)] := by
      simp [passACandidates, hvf, hnf, derivePackageName_append hn hno hterm]
    have hjc : jsonCandidates (some ⟨some [(nmPat ++ n, some v)], none⟩) = [(n, v)] := by
      show passACandidates [(nmPat ++ n, some v)] ++ [] = [(n, v)]
      rw [hpa, List.append_nil]
    unfold scanJsonLockfile
    rw [hjc]
    have hstep : matchFold aff [(n, v)] ⟨[], []⟩ =
        checkAndAddPackage n v aff ⟨[], []⟩ := rfl
    rw [hstep, checkAndAddPackage_eq]
    have hmi : matchesIndex aff (n, v) = true := by
      unfold matchesIndex
      rw [show List.lookup ((n, v)).1 aff = List.lookup n aff from rfl, hl]
      exact (contains_iff_mem vs v).mpr hmem
    simp [hmi]

/-- Witness for C3's amended statement: the scoped key
`node_modules/@scope/pkg` with version `1.0.0` is reported exactly once. -/
theorem C3_amended_witness :
    (scanJsonLockfile
        (some ⟨some [(nmPat ++ str "@scope/pkg", some (str "1.0.0"))], none⟩)
        [(str "@scope/pkg", [str "1.0.0"])] ⟨[], []⟩).found
      = [(str "@scope/pkg", str "1.0.0")] :=
  C3_amended.2.2 (str "@scope/pkg") (str "1.0.0") [str "1.0.0"]
    [(str "@scope/pkg", [str "1.0.0"])]
    (by decide) (by decide) (by decide) (by decide) (by decide) (by decide)

/-- C4 counterexample: a dataset consisting only of the header line parses to
zero records, yet the run does NOT abort — `main` proceeds to scan the
lockfiles against the empty index and completes with exit code 0. -/
theorem C4_counterexample :
    parseAffectedPackages (str "name;version") = [] ∧
    mainModel (some (str "name;version")) [Content.textC (str "")] =
      RunOutcome.completed 0 [[]] := by decide

/-- C4 amended: a missing/unreadable dataset file (the read throws, nothing
catches) aborts the run before any lockfile is scanned; but a dataset that
parses to zero records is NOT fatal — the scan proceeds with an empty index.
No per-file condition ever aborts: with a readable dataset the run always
completes. -/
theorem C4_amended :
    (∀ files, mainModel none files = RunOutcome.aborted) ∧
    (∀ ds files, mainModel (some ds) files ≠ RunOutcome.aborted) := by
  refine ⟨fun _ => rfl, ?_⟩
  intro ds files
  unfold mainModel
  by_cases h : files.isEmpty = true <;> simp [h]

/-- C5: within one file's scan, candidates are deduplicated by first
occurrence of their `name@version` key: the scan output is exactly the
index-filter of the first-occurrence dedup of the extracted candidate
sequence (so a repeated pair is reported at most once and output order is
first-occurrence order), the output has no duplicates, and each key enters
the `checked` set at most once (checked at most once against the index). -/
theorem C5_dedup_and_order :
    ∀ (c : Content) (aff : AffectedMap),
      scanLockfile c aff =
        (dedupByKey (fileCandidates c) []).filter (matchesIndex aff) ∧
      (scanLockfile c aff).Nodup ∧
      (scanLockfileSt c aff).checked.Nodup := by
  intro c aff
  have hfe := scanLockfile_eq c aff
  have hnd := dedupByKey_nodup (fileCandidates c) []
  refine ⟨hfe, ?_, ?_⟩
  · rw [hfe]
    exact List.Nodup.filter _ (List.Nodup.of_map keyOf hnd.1)
  · rw [scanLockfileSt_eq, matchFold_eq]
    show (((dedupByKey (fileCandidates c) []).map keyOf).reverse ++ []).Nodup
    rw [List.append_nil, List.nodup_reverse]
    exact hnd.1

/-- C6: the two-line `importers` form.  The indented `specifier:` line keeps
the pending package name, so `left-pad` / `version: 1.3.0` yields exactly one
match; with the `version:` line absent, zero matches (and, the embedding
being total, no error). -/
theorem C6_two_line_form :
    (scanYamlLockfile
        (str "  'left-pad':\n    specifier: ^1.3.0\n    version: 1.3.0")
        [(str "left-pad", [str "1.3.0"])] ⟨[], []⟩).found
      = [(str "left-pad", str "1.3.0")] ∧
    (scanYamlLockfile
        (str "  'left-pad':\n    specifier: ^1.3.0")
        [(str "left-pad", [str "1.3.0"])] ⟨[], []⟩).found
      = [] := by decide

/-- Two scans of the same content against the same index, as `main` would
perform them back-to-back, together with the index value after both. -/
def scanSameContentTwice (c : Content) (aff : AffectedMap) :
    List Cand × List Cand × AffectedMap :=
  (scanLockfile c aff, scanLockfile c aff, aff)

/-- C7: determinism and idempotence.  Scanning fixed content twice against a
fixed index yields syntactically equal, identically-ordered match lists, and
the index is unchanged afterwards.  (In the source the scanners only read
`affectedPackages` — `has`/`get` — and all per-file state is created fresh in
`scanLockfile`, which is what makes this embedding a pure function of the
content and the index.) -/
theorem C7_idempotent :
    ∀ (c : Content) (aff : AffectedMap),
      (scanSameContentTwice c aff).1 = (scanSameContentTwice c aff).2.1 ∧
      (scanSameContentTwice c aff).2.2 = aff :=
  fun _ _ => ⟨rfl, rfl⟩

/-- C8: malformed JSON is non-fatal and scoped: the catch around `JSON.parse`
makes a failed `.json` parse yield zero candidates and an empty match list
for that file; a run with a readable dataset never aborts; and with a
malformed file anywhere in the list, every file still contributes exactly one
entry to the per-file results (all files are scanned). -/
theorem C8_malformed_json :
    (∀ aff : AffectedMap, scanLockfile (Content.jsonC none) aff = []) ∧
    (∀ (ds : Str) (files : List Content),
       mainModel (some ds) files ≠ RunOutcome.aborted) ∧
    (∀ (ds : Str) (pre post : List Content),
       ∃ code results,
         mainModel (some ds) (pre ++ Content.jsonC none :: post) =
           RunOutcome.completed code results ∧
         results.length = pre.length + 1 + post.length) := by
  refine ⟨fun aff => rfl, ?_, ?_⟩
  · intro ds files
    unfold mainModel
    by_cases h : files.isEmpty = true <;> simp [h]
  · intro ds pre post
    have hne : (pre ++ Content.jsonC none :: post).isEmpty = false := by
      cases pre <;> simp
    have hrun : mainModel (some ds) (pre ++ Content.jsonC none :: post) =
        RunOutcome.completed
          (if 0 < (((pre ++ Content.jsonC none :: post).map
                (fun f => scanLockfile f (parseAffectedPackages ds))).map
                  List.length).sum
           then 1 else 0)
          ((pre ++ Content.jsonC none :: post).map
            (fun f => scanLockfile f (parseAffectedPackages ds))) := by
      unfold mainModel
      rw [hne]
      simp
    refine ⟨_, _, hrun, ?_⟩
    simp
    omega

/-- C9: the root flat-manifest entry, whose key is the empty string, is never
a candidate and never reported, whatever its version value and whatever the
index — Pass A behaves as if the entry were absent. -/
theorem C9_root_entry_excluded :
    ∀ (v : Option Str) (rest : List (Str × Option Str)) (deps : Option DepList)
      (aff : AffectedMap),
      passACandidates (([], v) :: rest) = passACandidates rest ∧
      scanJsonLockfile (some ⟨some (([], v) :: rest), deps⟩) aff ⟨[], []⟩ =
        scanJsonLockfile (some ⟨some rest, deps⟩) aff ⟨[], []⟩ := by
  intro v rest deps aff
  have hpass : passACandidates (([], v) :: rest) = passACandidates rest := by
    cases v with
    | none => simp [passACandidates]
    | some v' =>
      by_cases hv : v'.isEmpty = true
      · simp [passACandidates, hv]
      · have hd : derivePackageName ([] : Str) = [] := by decide
        simp [passACandidates, hv, hd]
  refine ⟨hpass, ?_⟩
  unfold scanJsonLockfile
  have hjc : jsonCandidates (some ⟨some (([], v) :: rest), deps⟩) =
      jsonCandidates (some ⟨some rest, deps⟩) := by
    show passACandidates (([], v) :: rest) ++ _ = passACandidates rest ++ _
    rw [hpass]
  rw [hjc]

/-- C10: the dedup key is the string `name + "@" + version`, not the pair:
once a key is in `checked`, any later candidate with the same concatenation —
including a distinct pair such as (`a`, `b@c`) versus (`a@b`, `c`) — leaves
the state untouched: it is never looked up in the index and never reported,
even when, as in the concrete instance below, it would have matched. -/
theorem C10_dedup_key_collision :
    (∀ (st : ScanState) (aff : AffectedMap) (n1 v1 n2 v2 : Str),
       mkKey n1 v1 = mkKey n2 v2 →
       checkAndAddPackage n2 v2 aff (checkAndAddPackage n1 v1 aff st) =
         checkAndAddPackage n1 v1 aff st) ∧
    ((str "a", str "b@c") ≠ ((str "a@b", str "c") : Cand) ∧
     mkKey (str "a") (str "b@c") = mkKey (str "a@b") (str "c") ∧
     scanNpmV1Dependencies
       (depList [(str "a", DepNode.mk (some (str "b@c")) DepList.nil),
                 (str "a@b", DepNode.mk (some (str "c")) DepList.nil)])
       [(str "a@b", [str "c"])] ⟨[], []⟩ = ⟨[], [str "a@b@c"]⟩) := by
  constructor
  · intro st aff n1 v1 n2 v2 hkey
    have hmem : mkKey n2 v2 ∈ (checkAndAddPackage n1 v1 aff st).checked := by
      rw [checkAndAddPackage_eq, ← hkey]
      by_cases h : mkKey n1 v1 ∈ st.checked
      · rw [if_pos h]; exact h
      · rw [if_neg h]; exact List.mem_cons_self _ _
    rw [checkAndAddPackage_eq n2 v2, if_pos hmem]
  · refine ⟨by decide, by decide, by decide⟩

/-- Witness for C10: the collision `a@b@c` concretely, starting from the
fresh state and the index that would have matched the second pair. -/
theorem C10_dedup_key_collision_witness :
    checkAndAddPackage (str "a@b") (str "c") [(str "a@b", [str "c"])]
        (checkAndAddPackage (str "a") (str "b@c") [(str "a@b", [str "c"])] ⟨[], []⟩) =
      checkAndAddPackage (str "a") (str "b@c") [(str "a@b", [str "c"])] ⟨[], []⟩ :=
  C10_dedup_key_collision.1 ⟨[], []⟩ [(str "a@b", [str "c"])]
    (str "a") (str "b@c") (str "a@b") (str "c") (by decide)
